import Mathlib

/-!
Verification of the addb eviction/tiering core and relational key codec.

The definitions below are a shallow embedding of `src/evict.c` and of the
relational key codec declared in `src/addb_relational.h`.  Machine integers
are modelled as `Nat`; the C code guards every subtraction that could
underflow except where noted, and `size_t` wraparound is made explicit with
`% 2 ^ 64` where it matters.  The `double` arithmetic of `LFULogIncr` is
modelled with exact rationals.
-/

namespace Addb

/-! ## LFU frequency estimator (`evict.c`, lines 300-349) -/

/-- Embedding of `LFUGetTimeInMinutes` (evict.c line 303): the unix time in
minutes, reduced to its least significant 16 bits. -/
def LFUGetTimeInMinutes (unixtime : Nat) : Nat :=
  (unixtime / 60) % 65536

/-- Embedding of `LFUTimeElapsed` (evict.c line 311).  `now` is the value of
`LFUGetTimeInMinutes()` and `ldt` the stored last-decrement time; both are
16-bit values in the source (`ldt` is extracted from a 24-bit field, `now`
is masked), so the subtraction `65535 - ldt` never underflows there. -/
def LFUTimeElapsed (now ldt : Nat) : Nat :=
  if ldt ≤ now then now - ldt else 65535 - ldt + now

/-- Embedding of `LFULogIncr` (evict.c line 319).  The C `double` draw
`r = rand()/RAND_MAX` and the probability computation are modelled with
exact rationals; `initVal` is `LFU_INIT_VAL` and `logFactor` is
`server.lfu_log_factor`, both configuration values defined outside the
embedded sources. -/
def LFULogIncr (initVal logFactor r : ℚ) (counter : Nat) : Nat :=
  if counter = 255 then 255
  else if r < 1 / ((if (counter : ℚ) - initVal < 0 then 0
                    else (counter : ℚ) - initVal) * logFactor + 1) then
    counter + 1
  else counter

/-- Embedding of `LFUDecrAndReturn` (evict.c line 336).  The argument `lru`
is the packed 24-bit `o->lru` word (16 bits last-decrement time, 8 bits
counter); `now` is the current `LFUGetTimeInMinutes()` value (below 65536),
so `(now << 8) | counter` is modelled as `now * 256 + counter`.  Returns the
updated `o->lru` word together with the returned counter.  The counter
update (halve when above `LFU_INIT_VAL*2`, clamped to `LFU_INIT_VAL*2`,
otherwise decrement) is factored into `LFUDecrCounter`. -/
def LFUDecrCounter (initVal counter : Nat) : Nat :=
  if initVal * 2 < counter then
    if counter / 2 < initVal * 2 then initVal * 2 else counter / 2
  else counter - 1

def LFUDecrAndReturn (initVal decayTime now lru : Nat) : Nat × Nat :=
  if decayTime ≤ LFUTimeElapsed now (lru / 256) ∧ lru % 256 ≠ 0 then
    (now * 256 + LFUDecrCounter initVal (lru % 256),
      LFUDecrCounter initVal (lru % 256))
  else (lru, lru % 256)

/-- C9 (corrected): for 16-bit `now` and `ldt`, the elapsed time computed by
`LFUTimeElapsed` is the wrapped difference `(now - ldt) mod 2^16` when
`ldt ≤ now`, and one less than that wrapped difference otherwise (the code
adds `65535`, not `65536`, in the wrap branch). -/
theorem lfuTimeElapsed_wrapped (now ldt : Nat) (hn : now < 65536) (hl : ldt < 65536) :
    (LFUTimeElapsed now ldt : Int) =
      if ldt ≤ now then ((now : Int) - ldt) % 65536
      else ((now : Int) - ldt) % 65536 - 1 := by
  unfold LFUTimeElapsed
  split_ifs with h
  · have h1 : ((now - ldt : Nat) : Int) = (now : Int) - ldt := by omega
    rw [h1]
    omega
  · have h1 : ((65535 - ldt + now : Nat) : Int) = 65535 - (ldt : Int) + now := by omega
    rw [h1]
    omega

/-- Witness for `lfuTimeElapsed_wrapped` at `now = 3`, `ldt = 10`. -/
theorem lfuTimeElapsed_wrapped_witness :
    (3 : Nat) < 65536 ∧ (10 : Nat) < 65536 ∧
      (LFUTimeElapsed 3 10 : Int) =
        (if (10 : Nat) ≤ 3 then ((3 : Int) - 10) % 65536
         else ((3 : Int) - 10) % 65536 - 1) :=
  ⟨by decide, by decide, lfuTimeElapsed_wrapped 3 10 (by decide) (by decide)⟩

/-- Counterexample to C9 as stated: at `now = 0`, `ldt = 1` the code computes
`65534`, while the wrapped difference `(0 - 1) mod 2^16 = 0 + 2^16 - 1` is
`65535`. -/
theorem lfuTimeElapsed_mod_counterexample :
    LFUTimeElapsed 0 1 = 65534 ∧ (0 + 2 ^ 16 - 1) % 2 ^ 16 = 65535 ∧
      LFUTimeElapsed 0 1 ≠ (0 + 2 ^ 16 - 1) % 2 ^ 16 := by
  decide

/-- C7: `LFULogIncr` returns either the counter or its successor, maps 255 to
255, never returns a value above 255, and increments exactly when the
uniform draw is below `1 / (max (counter - initVal) 0 * logFactor + 1)`. -/
theorem lfuLogIncr_spec (initVal logFactor r : ℚ) (counter : Nat)
    (hc : counter ≤ 255) :
    (LFULogIncr initVal logFactor r counter = counter ∨
      LFULogIncr initVal logFactor r counter = counter + 1) ∧
    (counter = 255 → LFULogIncr initVal logFactor r counter = 255) ∧
    LFULogIncr initVal logFactor r counter ≤ 255 ∧
    (LFULogIncr initVal logFactor r counter = counter + 1 ↔
      counter ≠ 255 ∧
        r < 1 / (max ((counter : ℚ) - initVal) 0 * logFactor + 1)) := by
  have hmax : (if (counter : ℚ) - initVal < 0 then 0 else (counter : ℚ) - initVal) =
      max ((counter : ℚ) - initVal) 0 := by
    split_ifs with h
    · exact (max_eq_right h.le).symm
    · exact (max_eq_left (not_lt.mp h)).symm
  by_cases h255 : counter = 255
  · subst h255
    have hres : LFULogIncr initVal logFactor r 255 = 255 := by
      unfold LFULogIncr
      rw [if_pos rfl]
    refine ⟨Or.inl hres, fun _ => hres, le_of_eq hres, ?_⟩
    rw [hres]
    constructor
    · intro h
      exact absurd h (by omega)
    · rintro ⟨h, -⟩
      exact absurd rfl h
  · by_cases hr : r < 1 / (max ((counter : ℚ) - initVal) 0 * logFactor + 1)
    · have hres : LFULogIncr initVal logFactor r counter = counter + 1 := by
        unfold LFULogIncr
        rw [if_neg h255, hmax, if_pos hr]
      refine ⟨Or.inr hres, fun h => absurd h h255, by rw [hres]; omega, ?_⟩
      rw [hres]
      exact ⟨fun _ => ⟨h255, hr⟩, fun _ => rfl⟩
    · have hres : LFULogIncr initVal logFactor r counter = counter := by
        unfold LFULogIncr
        rw [if_neg h255, hmax, if_neg hr]
      refine ⟨Or.inl hres, fun h => absurd h h255, by rw [hres]; omega, ?_⟩
      rw [hres]
      constructor
      · intro h
        exact absurd h (by omega)
      · rintro ⟨-, h⟩
        exact absurd h hr

/-- Witness for `lfuLogIncr_spec` at `initVal = 5`, `logFactor = 10`,
`r = 1/2`, `counter = 5`. -/
theorem lfuLogIncr_spec_witness :
    (5 : Nat) ≤ 255 ∧
      (LFULogIncr 5 10 (1 / 2) 5 = 5 ∨ LFULogIncr 5 10 (1 / 2) 5 = 5 + 1) :=
  ⟨by decide, (lfuLogIncr_spec 5 10 (1 / 2) 5 (by decide)).1⟩

/-- C8 (corrected): full characterisation of `LFUDecrAndReturn`.  When the
decay interval is due and the counter is positive, the counter is halved if
above twice the initial value (clamped to at least twice the initial value)
and decremented by one otherwise, and the last-decrement time is restamped
to `now`, the packed word staying within 24 bits; when the interval is not
due or the counter is zero, the packed word is left untouched (in
particular the time is not restamped); the returned counter is never
negative. -/
theorem lfuDecrAndReturn_spec (initVal decayTime now lru : Nat)
    (hnow : now < 65536) :
    (decayTime ≤ LFUTimeElapsed now (lru / 256) → lru % 256 ≠ 0 →
      (LFUDecrAndReturn initVal decayTime now lru).2 =
        (if initVal * 2 < lru % 256 then max (lru % 256 / 2) (initVal * 2)
         else lru % 256 - 1) ∧
      (LFUDecrAndReturn initVal decayTime now lru).1 / 256 = now ∧
      (LFUDecrAndReturn initVal decayTime now lru).1 % 256 =
        (LFUDecrAndReturn initVal decayTime now lru).2 ∧
      (LFUDecrAndReturn initVal decayTime now lru).1 < 2 ^ 24) ∧
    ((¬ decayTime ≤ LFUTimeElapsed now (lru / 256) ∨ lru % 256 = 0) →
      LFUDecrAndReturn initVal decayTime now lru = (lru, lru % 256)) ∧
    0 ≤ (LFUDecrAndReturn initVal decayTime now lru).2 := by
  have hc : lru % 256 < 256 := Nat.mod_lt _ (by omega)
  refine ⟨?_, ?_, Nat.zero_le _⟩
  · intro hdue hpos
    have hres : LFUDecrAndReturn initVal decayTime now lru =
        (now * 256 + LFUDecrCounter initVal (lru % 256),
          LFUDecrCounter initVal (lru % 256)) := by
      unfold LFUDecrAndReturn
      rw [if_pos ⟨hdue, hpos⟩]
    have hlt : LFUDecrCounter initVal (lru % 256) < 256 := by
      unfold LFUDecrCounter
      split_ifs <;> omega
    rw [hres]
    refine ⟨?_, by simp only; omega, by simp only; omega, by simp only; omega⟩
    simp only
    unfold LFUDecrCounter
    rw [Nat.max_def]
    split_ifs <;> omega
  · intro hnot
    have hcond : ¬ (decayTime ≤ LFUTimeElapsed now (lru / 256) ∧ lru % 256 ≠ 0) := by
      rcases hnot with h | h
      · exact fun hand => h hand.1
      · exact fun hand => hand.2 h
    unfold LFUDecrAndReturn
    rw [if_neg hcond]

/-- Witness for `lfuDecrAndReturn_spec`: `initVal = 5`, `decayTime = 1`,
`now = 7`, `lru = 5 * 256 + 30` (counter 30, last decrement time 5). -/
theorem lfuDecrAndReturn_spec_witness :
    (7 : Nat) < 65536 ∧ (1 : Nat) ≤ LFUTimeElapsed 7 ((5 * 256 + 30) / 256) ∧
      (5 * 256 + 30) % 256 ≠ 0 ∧
      (LFUDecrAndReturn 5 1 7 (5 * 256 + 30)).2 =
        (if 5 * 2 < (5 * 256 + 30) % 256 then
           max ((5 * 256 + 30) % 256 / 2) (5 * 2)
         else (5 * 256 + 30) % 256 - 1) :=
  ⟨by decide, by decide, by decide,
    ((lfuDecrAndReturn_spec 5 1 7 (5 * 256 + 30) (by decide)).1
      (by decide) (by decide)).1⟩

/-- Counterexample to C8 as stated: with a zero counter (`lru = 0`) the decay
interval is due at `now = 100` with `decayTime = 1`, yet the last-decrement
time is not restamped: the packed word stays `0`, whose time field `0 / 256`
differs from `now = 100`. -/
theorem lfuDecr_restamp_counterexample :
    1 ≤ LFUTimeElapsed 100 (0 / 256) ∧
      LFUDecrAndReturn 5 1 100 0 = (0, 0) ∧
      (LFUDecrAndReturn 5 1 100 0).1 / 256 ≠ 100 := by
  decide

/-! ## Eviction pool (`evict.c`, lines 142-261)

`evictionPoolPopulate` inserts each sampled key into a fixed array of
`EVPOOL_SIZE` slots kept in ascending score order, where empty slots (key
pointer `NULL`) always form a suffix of the array.  The pool is therefore
modelled as the list of scores of the occupied slots, in array order; the
slot index `k` computed by the scan
`while (k < EVPOOL_SIZE && pool[k].key && pool[k].idle < idle) k++;`
is the length of the longest prefix of scores below the new score.
Sampling, score computation and the per-slot key buffers are abstracted:
the insertion logic is a function of the score sequence alone. -/

def EVPOOL_SIZE : Nat := 16

/-- One insertion step of `evictionPoolPopulate` (evict.c lines 209-259),
mirroring the four cases of the C code: reject when the new score is not
above the minimum of a full pool; place into the first empty slot when the
scan stopped at one; shift right when a free slot remains at the right end;
otherwise drop the leftmost (minimum) entry and insert at `k - 1`. -/
def poolInsert (pool : List Nat) (idle : Nat) : List Nat :=
  if (pool.takeWhile (fun x => x < idle)).length = 0 ∧ pool.length = EVPOOL_SIZE then
    pool
  else if (pool.takeWhile (fun x => x < idle)).length < EVPOOL_SIZE ∧
      (pool.takeWhile (fun x => x < idle)).length = pool.length then
    pool ++ [idle]
  else if pool.length < EVPOOL_SIZE then
    pool.take (pool.takeWhile (fun x => x < idle)).length ++
      idle :: pool.drop (pool.takeWhile (fun x => x < idle)).length
  else
    (pool.drop 1).take ((pool.takeWhile (fun x => x < idle)).length - 1) ++
      idle :: pool.drop (pool.takeWhile (fun x => x < idle)).length

/-- A sequence of `evictionPoolPopulate` insertions starting from the empty
pool created by `evictionPoolAlloc` (all slots empty). -/
def evictionPoolPopulate (samples : List Nat) : List Nat :=
  samples.foldl poolInsert []

theorem takeDrop_insert_eq_orderedInsert (pool : List Nat) (idle : Nat) :
    pool.take (pool.takeWhile (fun x => x < idle)).length ++
        idle :: pool.drop (pool.takeWhile (fun x => x < idle)).length =
      pool.orderedInsert (· ≤ ·) idle := by
  induction pool with
  | nil => rfl
  | cons b l ih =>
    by_cases hb : b < idle
    · have hni : ¬ idle ≤ b := by omega
      simp only [List.takeWhile_cons, hb, decide_True, if_true, decide_eq_true_eq,
        ite_true, List.length_cons, List.take_succ_cons, List.drop_succ_cons,
        List.orderedInsert, List.cons_append]
      rw [if_neg hni, ih]
    · have hi : idle ≤ b := by omega
      simp only [List.takeWhile_cons, hb, decide_False, Bool.false_eq_true, ite_false,
        if_false, decide_eq_true_eq, List.length_nil, List.take_zero, List.drop_zero,
        List.nil_append, List.orderedInsert]
      rw [if_pos hi]

theorem poolInsert_not_full (pool : List Nat) (idle : Nat)
    (h : pool.length < EVPOOL_SIZE) :
    poolInsert pool idle = pool.orderedInsert (· ≤ ·) idle := by
  have hk : (pool.takeWhile (fun x => x < idle)).length ≤ pool.length :=
    (List.takeWhile_sublist _).length_le
  unfold poolInsert
  rw [if_neg (by omega)]
  by_cases h2 : (pool.takeWhile (fun x => x < idle)).length = pool.length
  · rw [if_pos ⟨by omega, h2⟩, ← takeDrop_insert_eq_orderedInsert, h2,
      List.take_length, List.drop_length]
  · rw [if_neg (by tauto), if_pos h, takeDrop_insert_eq_orderedInsert]

theorem poolInsert_full (x idle : Nat) (rest : List Nat)
    (h : (x :: rest).length = EVPOOL_SIZE) :
    poolInsert (x :: rest) idle =
      if x < idle then rest.orderedInsert (· ≤ ·) idle else x :: rest := by
  by_cases hx : x < idle
  · have hk : ((x :: rest).takeWhile (fun x => x < idle)).length =
        (rest.takeWhile (fun x => x < idle)).length + 1 := by
      simp only [List.takeWhile_cons, hx, decide_True, if_true, decide_eq_true_eq,
        ite_true, List.length_cons]
    have hkr : (rest.takeWhile (fun x => x < idle)).length ≤ rest.length :=
      (List.takeWhile_sublist _).length_le
    unfold poolInsert
    rw [if_neg (by omega), if_neg (by simp only [h]; omega), if_neg (by omega), hk,
      if_pos hx]
    simp only [List.drop_succ_cons, List.drop_one, Nat.add_sub_cancel, List.tail_cons]
    exact takeDrop_insert_eq_orderedInsert rest idle
  · have hk : ((x :: rest).takeWhile (fun x => x < idle)).length = 0 := by
      simp only [List.takeWhile_cons, hx, decide_False, Bool.false_eq_true, ite_false,
        if_false, decide_eq_true_eq, List.length_nil]
    unfold poolInsert
    rw [if_pos ⟨hk, h⟩, if_neg hx]

theorem poolInsert_invariant (pool : List Nat) (idle : Nat)
    (hs : List.Sorted (· ≤ ·) pool) (hl : pool.length ≤ EVPOOL_SIZE) :
    List.Sorted (· ≤ ·) (poolInsert pool idle) ∧
      (poolInsert pool idle).length ≤ EVPOOL_SIZE := by
  by_cases h : pool.length < EVPOOL_SIZE
  · rw [poolInsert_not_full pool idle h]
    exact ⟨hs.orderedInsert idle pool, by rw [List.orderedInsert_length]; omega⟩
  · have hfull : pool.length = EVPOOL_SIZE := by omega
    match pool, hfull with
    | x :: rest, hfull =>
      rw [poolInsert_full x idle rest hfull]
      split_ifs
      · refine ⟨(List.sorted_cons.mp hs).2.orderedInsert idle rest, ?_⟩
        rw [List.orderedInsert_length]
        simpa using Nat.le_of_eq hfull
      · exact ⟨hs, Nat.le_of_eq hfull⟩

/-- C2: after any sequence of pool insertions starting from the empty pool,
the occupied slots are sorted ascending by score and never exceed
`EVPOOL_SIZE = 16`; moreover on a full pool (whose leftmost entry `x` is its
minimum, by sortedness) an insertion keeps the pool unchanged unless the new
score is strictly greater than that minimum, in which case exactly the
minimum is discarded and the new score is placed at its ordered position
among the survivors — so a score merely equal to an incumbent never
displaces it. -/
theorem evictionPool_sorted_bounded_admission :
    (∀ samples : List Nat,
      List.Sorted (· ≤ ·) (evictionPoolPopulate samples) ∧
        (evictionPoolPopulate samples).length ≤ EVPOOL_SIZE) ∧
    (∀ (x idle : Nat) (rest : List Nat), List.Sorted (· ≤ ·) (x :: rest) →
      (x :: rest).length = EVPOOL_SIZE →
      poolInsert (x :: rest) idle =
        if x < idle then rest.orderedInsert (· ≤ ·) idle else x :: rest) := by
  constructor
  · have haux : ∀ (samples pool : List Nat), List.Sorted (· ≤ ·) pool →
        pool.length ≤ EVPOOL_SIZE →
        List.Sorted (· ≤ ·) (samples.foldl poolInsert pool) ∧
          (samples.foldl poolInsert pool).length ≤ EVPOOL_SIZE := by
      intro samples
      induction samples with
      | nil => exact fun pool hs hl => ⟨hs, hl⟩
      | cons a samples ih =>
        intro pool hs hl
        have h1 := poolInsert_invariant pool a hs hl
        exact ih (poolInsert pool a) h1.1 h1.2
    exact fun samples => haux samples [] List.sorted_nil (by decide)
  · exact fun x idle rest _ h => poolInsert_full x idle rest h

/-- Witness for `evictionPool_sorted_bounded_admission` on a concrete full
sorted pool and a sample score of `7`. -/
theorem evictionPool_admission_witness :
    List.Sorted (· ≤ ·)
        [1, 2, 3, 4, 5, 6, 7, 8, 9, 10, 11, 12, 13, 14, 15, 16] ∧
      ([1, 2, 3, 4, 5, 6, 7, 8, 9, 10, 11, 12, 13, 14, 15, 16] : List Nat).length =
        EVPOOL_SIZE ∧
      poolInsert [1, 2, 3, 4, 5, 6, 7, 8, 9, 10, 11, 12, 13, 14, 15, 16] 7 =
        (if 1 < 7 then
          List.orderedInsert (· ≤ ·) 7 [2, 3, 4, 5, 6, 7, 8, 9, 10, 11, 12, 13, 14, 15, 16]
         else [1, 2, 3, 4, 5, 6, 7, 8, 9, 10, 11, 12, 13, 14, 15, 16]) :=
  ⟨by decide, by decide,
    evictionPool_sorted_bounded_admission.2 1 7
      [2, 3, 4, 5, 6, 7, 8, 9, 10, 11, 12, 13, 14, 15, 16] (by decide) (by decide)⟩

/-! ## Tiering queues and memory-pressure controller (`evict.c`, lines 351-741)

The server state visible to `freeMemoryIfNeeded` and `_batchTiering` is
collected in one record.  Queue entries pair a key with its value object:
`location` models the `robj` field tested by
`serverAssert(victVal->location == LOCATION_PERSISTED)` and `score` the
ranking used by the queue selection helper.  `size_t` subtractions that the
C code leaves unguarded are modelled with explicit wraparound `% 2 ^ 64`. -/

def SIZE_T_MOD : Nat := 2 ^ 64

/-- Unsigned `size_t` subtraction `a - b` with 64-bit wraparound. -/
def sizetSub (a b : Nat) : Nat :=
  (a % SIZE_T_MOD + (SIZE_T_MOD - b % SIZE_T_MOD)) % SIZE_T_MOD

/-- Unsigned `size_t` multiplication `a * b` with 64-bit wraparound. -/
def sizetMul (a b : Nat) : Nat :=
  a % SIZE_T_MOD * (b % SIZE_T_MOD) % SIZE_T_MOD

/-- The `location` field of a value object (`robj`); `LOCATION_PERSISTED`
marks an entity whose persistence the cold store has confirmed.  The
constants are declared outside the embedded sources; only `persisted`
matters here. -/
inductive Location where
  | redis
  | flushing
  | persisted
deriving DecidableEq

/-- One queue entry: a dictionary entry holding key and value object. -/
structure Entry where
  key : Nat
  score : Nat
  size : Nat
  location : Location
deriving DecidableEq

/-- Maxmemory policy; the rewritten `freeMemoryIfNeeded` only distinguishes
`MAXMEMORY_NO_EVICTION` from the rest. -/
inductive Policy where
  | noEviction
  | lru
  | lfu
deriving DecidableEq

/-- Return value of `freeMemoryIfNeeded`: `C_OK` or `C_ERR`. -/
inductive CResult where
  | ok
  | err
deriving DecidableEq

/-- A `serverAssert` failure: aborting faults of the reclamation loop. -/
inductive FatalFault where
  | victimNotPersisted
  | clearFailed
deriving DecidableEq

instance exceptDecEq {ε α : Type} [DecidableEq ε] [DecidableEq α] :
    DecidableEq (Except ε α) := fun a b =>
  match a, b with
  | Except.error e1, Except.error e2 =>
    if h : e1 = e2 then isTrue (by rw [h])
    else isFalse (fun hc => by cases hc; exact h rfl)
  | Except.ok v1, Except.ok v2 =>
    if h : v1 = v2 then isTrue (by rw [h])
    else isFalse (fun hc => by cases hc; exact h rfl)
  | Except.error _, Except.ok _ => isFalse (fun hc => by cases hc)
  | Except.ok _, Except.error _ => isFalse (fun hc => by cases hc)

structure ServerState where
  clientsPaused : Bool
  zmallocUsed : Nat
  maxmemory : Nat
  maxmemoryPolicy : Policy
  /-- Output-buffer memory usage of each slave client. -/
  slaves : List Nat
  /-- Whether `server.aof_state != AOF_OFF`. -/
  aofOn : Bool
  aofBufLen : Nat
  aofRewriteBufSize : Nat
  evictQueue : List Entry
  freeQueue : List Entry
  primaryStore : List Nat
  statEvictedkeys : Nat
  /-- `server.batch_tiering_size`. -/
  batchTieringSize : Nat
  /-- `DEFAULT_FREE_QUEUE_SIZE`. -/
  freeQueueMax : Nat
  /-- Memory readings observed while lazy-free background jobs remain
  pending; one reading per busy-poll iteration, exhausted when no job is
  left. -/
  bioLazyFreeReadings : List Nat
deriving DecidableEq

/-- Embedding of `freeMemoryGetNotCountedMemory` (evict.c line 359): the sum
of all slave output buffers, plus the AOF buffers when AOF is enabled. -/
def freeMemoryGetNotCountedMemory (s : ServerState) : Nat :=
  s.slaves.sum + (if s.aofOn then s.aofBufLen + s.aofRewriteBufSize else 0)

/-- Modelled from the spec: `chooseBestKeyFromQueue_` (declared outside the
embedded sources) selects the best candidate of EvictQueue under the
strictly-greater scoring discipline of the eviction pool — the earliest
entry of maximal score — and removes it from the queue. -/
def chooseBestKeyFromQueue : List Entry → Option (Entry × List Entry)
  | [] => none
  | e :: rest =>
    match chooseBestKeyFromQueue rest with
    | none => some (e, [])
    | some (b, brest) =>
      if e.score < b.score then some (b, e :: brest) else some (e, rest)

/-- The selection loop of `_batchTiering` (evict.c lines 594-605):
`while (!isEmpty(db->EvictQueue) && count > 0)` pop the best candidate,
collect it, and decrement `count`.  Returns the collected batch in
selection order together with the remaining queue. -/
def selectBatch : List Entry → Nat → List Entry × List Entry
  | q, 0 => ([], q)
  | q, n + 1 =>
    match chooseBestKeyFromQueue q with
    | none => ([], q)
    | some (e, rest) => ((selectBatch rest n).1.cons e, (selectBatch rest n).2)

/-- Modelled from the spec: `dbPersistBatch_` (declared outside the embedded
sources) hands the collected batch to the cold store as one unit; the cold
store confirms persistence of every entry, which is thereby marked
persisted and becomes safe for FreeQueue. -/
def dbPersistBatch (batch : List Entry) : List Entry :=
  batch.map (fun e => { e with location := Location.persisted })

/-- Embedding of `_batchTiering` (evict.c line 593): select up to
`server.batch_tiering_size` entries from EvictQueue, persist them as one
batch (refilling FreeQueue with the persisted entries), and add the number
of collected relations (`vectorCount(evict_relations)`) to
`server.stat_evictedkeys`. -/
def batchTiering (s : ServerState) : ServerState :=
  { s with
    evictQueue := (selectBatch s.evictQueue s.batchTieringSize).2,
    freeQueue := s.freeQueue ++ dbPersistBatch (selectBatch s.evictQueue s.batchTieringSize).1,
    statEvictedkeys :=
      s.statEvictedkeys + (selectBatch s.evictQueue s.batchTieringSize).1.length }

/-- Modelled from the spec: `chooseClearKeyFromQueue_` (declared outside the
embedded sources) pops one victim from FreeQueue. -/
def chooseClearKeyFromQueue : List Entry → Option (Entry × List Entry)
  | [] => none
  | v :: rest => some (v, rest)

/-- Modelled from the spec: `dbClear_` (declared outside the embedded
sources) removes an already-persisted entity from the primary store,
freeing its memory; its nonzero return value (`isFlushed`) signals failure,
which the caller escalates with `serverAssert(0)`. -/
def dbClear (s : ServerState) (victim : Entry) : Bool × ServerState :=
  if victim.key ∈ s.primaryStore then
    (false,
      { s with
        primaryStore := s.primaryStore.erase victim.key,
        zmallocUsed := s.zmallocUsed - victim.size })
  else (true, s)

/-- One iteration of the reclamation loop of `freeMemoryIfNeeded`
(evict.c lines 679-720): pop a victim from FreeQueue; if one is present,
assert it is marked persisted (`serverAssert(victVal->location ==
LOCATION_PERSISTED)`, fatal on violation), clear it from the primary store
and assert the clear succeeded; if FreeQueue is empty, run a forced
out-of-band `_batchTiering` pass and continue. -/
def reclaimStep (s : ServerState) : Except FatalFault ServerState :=
  match chooseClearKeyFromQueue s.freeQueue with
  | some (victim, rest) =>
    if victim.location = Location.persisted then
      if (dbClear { s with freeQueue := rest } victim).1 then
        Except.error FatalFault.clearFailed
      else Except.ok (dbClear { s with freeQueue := rest } victim).2
    else Except.error FatalFault.victimNotPersisted
  | none => Except.ok (batchTiering s)

/-- The loop-exit recomputation of `mem_used` (evict.c lines 722-726):
re-read `zmalloc_used_memory()` and subtract the AOF buffers when AOF is
enabled (unguarded `size_t` subtractions). -/
def memUsedRecompute (s : ServerState) : Nat :=
  if s.aofOn then sizetSub (sizetSub s.zmallocUsed s.aofBufLen) s.aofRewriteBufSize
  else s.zmallocUsed

/-- The reclamation loop `while (mem_used > server.maxmemory)` of
`freeMemoryIfNeeded`.  The loop has no iteration cap in the source; `fuel`
is a modelling device bounding the number of iterations considered. -/
def reclaimLoop : Nat → Nat → ServerState → Except FatalFault (CResult × ServerState)
  | 0, _, s => Except.ok (CResult.ok, s)
  | fuel + 1, memUsed, s =>
    if s.maxmemory < memUsed then
      match reclaimStep s with
      | Except.error e => Except.error e
      | Except.ok s1 => reclaimLoop fuel (memUsedRecompute s1) s1
    else Except.ok (CResult.ok, s)

/-- The `cant_free` busy-poll (evict.c lines 735-739): while lazy-free
background jobs are pending, re-read `zmalloc_used_memory()` (one entry of
the reading trace per iteration) and stop once
`(mem_reported - zmalloc_used_memory()) + mem_freed >= mem_tofree` (with
`mem_freed = 0` on this path); returns the readings not yet consumed. -/
def busyPollLazyFree (memReported memTofree : Nat) : List Nat → List Nat
  | [] => []
  | r :: rs =>
    if memTofree ≤ sizetSub memReported r then r :: rs
    else busyPollLazyFree memReported memTofree rs

/-- Embedding of the rewritten `freeMemoryIfNeeded` (evict.c line 610):
return `C_OK` at once when clients are paused, when reported usage is at
most `maxmemory * 8/10`, or when usage minus the not-counted overhead is at
most `maxmemory * 8/10` — where `server.maxmemory * 8` is an unsigned
64-bit multiplication and wraps, modelled with `sizetMul`; under the
no-eviction policy go to `cant_free` (busy-poll the lazy-free jobs, then
`C_ERR`); otherwise run a proactive `_batchTiering` pass when FreeQueue is
below `DEFAULT_FREE_QUEUE_SIZE - 1` and enter the reclamation loop. -/
def freeMemoryIfNeeded (fuel : Nat) (s : ServerState) :
    Except FatalFault (CResult × ServerState) :=
  if s.clientsPaused then Except.ok (CResult.ok, s)
  else if s.zmallocUsed ≤ sizetMul s.maxmemory 8 / 10 then Except.ok (CResult.ok, s)
  else if s.zmallocUsed - freeMemoryGetNotCountedMemory s ≤ sizetMul s.maxmemory 8 / 10 then
    Except.ok (CResult.ok, s)
  else if s.maxmemoryPolicy = Policy.noEviction then
    Except.ok (CResult.err,
      { s with
        bioLazyFreeReadings :=
          busyPollLazyFree s.zmallocUsed
            (sizetSub (s.zmallocUsed - freeMemoryGetNotCountedMemory s) s.maxmemory)
            s.bioLazyFreeReadings })
  else
    reclaimLoop fuel (s.zmallocUsed - freeMemoryGetNotCountedMemory s)
      (if s.freeQueue.length < s.freeQueueMax - 1 then batchTiering s else s)

theorem chooseBestKeyFromQueue_eq_none (q : List Entry) :
    chooseBestKeyFromQueue q = none ↔ q = [] := by
  cases q with
  | nil => simp [chooseBestKeyFromQueue]
  | cons e rest =>
    simp only [chooseBestKeyFromQueue]
    constructor
    · intro h
      cases hcr : chooseBestKeyFromQueue rest with
      | none => rw [hcr] at h; simp at h
      | some p =>
        obtain ⟨b, brest⟩ := p
        rw [hcr] at h
        by_cases hs : e.score < b.score <;> simp [hs] at h
    · intro h
      exact absurd h (List.cons_ne_nil e rest)

theorem chooseBestKeyFromQueue_length (q : List Entry) :
    ∀ (e : Entry) (rest : List Entry),
      chooseBestKeyFromQueue q = some (e, rest) → rest.length + 1 = q.length := by
  induction q with
  | nil => intro e rest h; simp [chooseBestKeyFromQueue] at h
  | cons a q ih =>
    intro e rest h
    simp only [chooseBestKeyFromQueue] at h
    cases hcr : chooseBestKeyFromQueue q with
    | none =>
      have hq : q = [] := (chooseBestKeyFromQueue_eq_none q).mp hcr
      rw [hcr] at h
      simp only [Option.some.injEq, Prod.mk.injEq] at h
      subst hq
      rw [← h.2]
      rfl
    | some p =>
      obtain ⟨b, brest⟩ := p
      have hb := ih b brest hcr
      simp only [hcr] at h
      by_cases hs : a.score < b.score
      · rw [if_pos hs] at h
        simp only [Option.some.injEq, Prod.mk.injEq] at h
        rw [← h.2]
        simp only [List.length_cons]
        omega
      · rw [if_neg hs] at h
        simp only [Option.some.injEq, Prod.mk.injEq] at h
        rw [← h.2]
        rfl

theorem selectBatch_lengths (n : Nat) :
    ∀ q : List Entry,
      (selectBatch q n).1.length = min n q.length ∧
        (selectBatch q n).2.length = q.length - min n q.length := by
  induction n with
  | zero => intro q; simp [selectBatch]
  | succ n ih =>
    intro q
    cases hq : chooseBestKeyFromQueue q with
    | none =>
      have hqnil : q = [] := (chooseBestKeyFromQueue_eq_none q).mp hq
      subst hqnil
      simp [selectBatch, chooseBestKeyFromQueue]
    | some p =>
      obtain ⟨e, rest⟩ := p
      have hlen := chooseBestKeyFromQueue_length q e rest hq
      have ihr := ih rest
      simp only [selectBatch, hq, List.length_cons]
      omega

/-- C4: a `_batchTiering` run on an EvictQueue holding `M` entries selects
`min M batchSize` candidates — all `M` (emptying the queue) when
`M < batchSize`, exactly `batchSize` when `M ≥ batchSize` — and increments
`server.stat_evictedkeys` by the number of entries the cold store persisted
(every collected entry, under the modelled cold store). -/
theorem batchTiering_drain_and_stat :
    (∀ (q : List Entry) (n : Nat),
      (selectBatch q n).1.length = min n q.length ∧
      (q.length ≤ n → (selectBatch q n).2 = []) ∧
      (n ≤ q.length → (selectBatch q n).1.length = n ∧
        (selectBatch q n).2.length = q.length - n)) ∧
    (∀ s : ServerState,
      (batchTiering s).statEvictedkeys =
        s.statEvictedkeys +
          (dbPersistBatch (selectBatch s.evictQueue s.batchTieringSize).1).length) := by
  constructor
  · intro q n
    have h := selectBatch_lengths n q
    refine ⟨h.1, ?_, fun hge => ⟨by omega, by omega⟩⟩
    intro hle
    have h0 : (selectBatch q n).2.length = 0 := by omega
    exact List.length_eq_zero.mp h0
  · intro s
    simp [batchTiering, dbPersistBatch]

def batchWitnessQueue : List Entry :=
  [⟨1, 5, 10, Location.redis⟩, ⟨2, 9, 10, Location.redis⟩, ⟨3, 1, 10, Location.redis⟩]

/-- Witness for `batchTiering_drain_and_stat`: a three-entry queue is fully
drained with quota `5` and yields exactly `2` selections with quota `2`. -/
theorem batchTiering_drain_witness :
    batchWitnessQueue.length ≤ 5 ∧ (selectBatch batchWitnessQueue 5).2 = [] ∧
      (2 : Nat) ≤ batchWitnessQueue.length ∧
      (selectBatch batchWitnessQueue 2).1.length = 2 :=
  ⟨by decide, (batchTiering_drain_and_stat.1 batchWitnessQueue 5).2.1 (by decide),
    by decide, ((batchTiering_drain_and_stat.1 batchWitnessQueue 2).2.2 (by decide)).1⟩

/-- C3: in each iteration of the reclamation loop, a victim popped from a
non-empty FreeQueue is removed from the primary store only after the fatal
assertion that it is marked persisted — an unpersisted victim aborts, so no
entity is ever removed via FreeQueue without confirmed persistence — and an
empty FreeQueue triggers an out-of-band `_batchTiering` pass and the loop
continues rather than treating emptiness as an error. -/
theorem reclaimStep_freeQueue_safety (s : ServerState) :
    (∀ (v : Entry) (rest : List Entry), s.freeQueue = v :: rest →
      (v.location ≠ Location.persisted →
        reclaimStep s = Except.error FatalFault.victimNotPersisted) ∧
      (v.location = Location.persisted → v.key ∈ s.primaryStore →
        reclaimStep s = Except.ok
          { s with freeQueue := rest,
                   primaryStore := s.primaryStore.erase v.key,
                   zmallocUsed := s.zmallocUsed - v.size })) ∧
    (s.freeQueue = [] → reclaimStep s = Except.ok (batchTiering s)) ∧
    (∀ s1 : ServerState, reclaimStep s = Except.ok s1 →
      s1.primaryStore ≠ s.primaryStore →
      ∃ (v : Entry) (rest : List Entry),
        s.freeQueue = v :: rest ∧ v.location = Location.persisted) := by
  refine ⟨?_, ?_, ?_⟩
  · intro v rest hfq
    have hc : chooseClearKeyFromQueue s.freeQueue = some (v, rest) := by
      rw [hfq]; rfl
    constructor
    · intro hnp
      simp only [reclaimStep, hc]
      rw [if_neg hnp]
    · intro hp hmem
      simp only [reclaimStep, hc]
      rw [if_pos hp]
      have hdb : dbClear { s with freeQueue := rest } v =
          (false, { s with freeQueue := rest,
                           primaryStore := s.primaryStore.erase v.key,
                           zmallocUsed := s.zmallocUsed - v.size }) := by
        unfold dbClear
        rw [if_pos hmem]
      rw [hdb]
      rfl
  · intro hfq
    have hc : chooseClearKeyFromQueue s.freeQueue = none := by
      rw [hfq]; rfl
    simp only [reclaimStep, hc]
  · intro s1 hok hne
    cases hfq : s.freeQueue with
    | nil =>
      have hc : chooseClearKeyFromQueue s.freeQueue = none := by
        rw [hfq]; rfl
      simp only [reclaimStep, hc, Except.ok.injEq] at hok
      have : s1.primaryStore = s.primaryStore := by
        rw [← hok]; simp [batchTiering]
      exact absurd this hne
    | cons v rest =>
      by_cases hv : v.location = Location.persisted
      · exact ⟨v, rest, rfl, hv⟩
      · have hc : chooseClearKeyFromQueue s.freeQueue = some (v, rest) := by
          rw [hfq]; rfl
        simp only [reclaimStep, hc] at hok
        rw [if_neg hv] at hok
        exact absurd hok (by simp)

def reclaimWitnessState : ServerState :=
  { clientsPaused := false, zmallocUsed := 100, maxmemory := 50,
    maxmemoryPolicy := Policy.lru, slaves := [], aofOn := false, aofBufLen := 0,
    aofRewriteBufSize := 0, evictQueue := [],
    freeQueue := [⟨1, 0, 30, Location.persisted⟩], primaryStore := [1, 2],
    statEvictedkeys := 0, batchTieringSize := 2, freeQueueMax := 10,
    bioLazyFreeReadings := [] }

/-- Witness for `reclaimStep_freeQueue_safety`: a persisted victim present in
the primary store is cleared. -/
theorem reclaimStep_safety_witness :
    reclaimStep reclaimWitnessState = Except.ok
      { reclaimWitnessState with
        freeQueue := [],
        primaryStore := reclaimWitnessState.primaryStore.erase 1,
        zmallocUsed := reclaimWitnessState.zmallocUsed - 30 } :=
  ((reclaimStep_freeQueue_safety reclaimWitnessState).1
    ⟨1, 0, 30, Location.persisted⟩ [] rfl).2 rfl (by decide)

theorem sizetMul8_div10_le (m : Nat) : sizetMul m 8 / 10 ≤ m := by
  unfold sizetMul SIZE_T_MOD
  omega

theorem sizetMul8_eq_of_no_overflow (m : Nat) (h : 8 * m < SIZE_T_MOD) :
    sizetMul m 8 = m * 8 := by
  unfold sizetMul SIZE_T_MOD at *
  omega

/-- C5 (corrected): under the no-eviction policy, with usage net of
not-counted overhead above the ceiling and clients not paused, `reclaim`
returns `C_ERR` without touching EvictQueue, FreeQueue or the primary
store, after attempting the `cant_free` busy-poll wait for in-flight
lazy-free background deletions — but it fails unconditionally, even when
that wait observes usage back under the target. -/
theorem noEviction_reclaim_fails (fuel : Nat) (s : ServerState)
    (hpause : s.clientsPaused = false)
    (hpol : s.maxmemoryPolicy = Policy.noEviction)
    (hover : s.maxmemory < s.zmallocUsed - freeMemoryGetNotCountedMemory s) :
    freeMemoryIfNeeded fuel s =
      Except.ok (CResult.err,
        { s with bioLazyFreeReadings :=
            (busyPollLazyFree s.zmallocUsed
              (sizetSub (s.zmallocUsed - freeMemoryGetNotCountedMemory s) s.maxmemory)
              s.bioLazyFreeReadings) }) := by
  have hth := sizetMul8_div10_le s.maxmemory
  unfold freeMemoryIfNeeded
  rw [hpause, hpol]
  rw [if_neg (by simp), if_neg (by omega), if_neg (by omega), if_pos rfl]

def noEvictionWitnessState : ServerState :=
  { clientsPaused := false, zmallocUsed := 300, maxmemory := 100,
    maxmemoryPolicy := Policy.noEviction, slaves := [], aofOn := false,
    aofBufLen := 0, aofRewriteBufSize := 0,
    evictQueue := [⟨7, 3, 10, Location.redis⟩],
    freeQueue := [⟨8, 1, 10, Location.persisted⟩], primaryStore := [7, 8],
    statEvictedkeys := 0, batchTieringSize := 1, freeQueueMax := 10,
    bioLazyFreeReadings := [] }

/-- Witness for `noEviction_reclaim_fails` on a concrete over-limit state. -/
theorem noEviction_reclaim_fails_witness :
    noEvictionWitnessState.clientsPaused = false ∧
      noEvictionWitnessState.maxmemoryPolicy = Policy.noEviction ∧
      noEvictionWitnessState.maxmemory <
        noEvictionWitnessState.zmallocUsed -
          freeMemoryGetNotCountedMemory noEvictionWitnessState ∧
      freeMemoryIfNeeded 4 noEvictionWitnessState =
        Except.ok (CResult.err,
          { noEvictionWitnessState with bioLazyFreeReadings :=
              (busyPollLazyFree noEvictionWitnessState.zmallocUsed
                (sizetSub
                  (noEvictionWitnessState.zmallocUsed -
                    freeMemoryGetNotCountedMemory noEvictionWitnessState)
                  noEvictionWitnessState.maxmemory)
                noEvictionWitnessState.bioLazyFreeReadings) }) :=
  ⟨rfl, rfl, by decide,
    noEviction_reclaim_fails 4 noEvictionWitnessState rfl rfl (by decide)⟩

def noEvictionCexState : ServerState :=
  { clientsPaused := false, zmallocUsed := 300, maxmemory := 100,
    maxmemoryPolicy := Policy.noEviction, slaves := [], aofOn := false,
    aofBufLen := 0, aofRewriteBufSize := 0, evictQueue := [], freeQueue := [],
    primaryStore := [], statEvictedkeys := 0, batchTieringSize := 0,
    freeQueueMax := 10, bioLazyFreeReadings := [50] }

/-- Counterexample to C5 as stated ("failing only if usage is still over the
target"): from usage 300 over ceiling 100, the busy-poll observes a reading
of 50 — background deletions have freed 250 ≥ mem_tofree = 200, so usage is
back under the target and the poll stops — yet `freeMemoryIfNeeded` still
returns `C_ERR`. -/
theorem noEviction_busyPoll_counterexample :
    freeMemoryIfNeeded 1 noEvictionCexState =
        Except.ok (CResult.err, noEvictionCexState) ∧
      noEvictionCexState.bioLazyFreeReadings = [50] ∧
      (50 : Nat) ≤ noEvictionCexState.maxmemory ∧
      sizetSub
          (noEvictionCexState.zmallocUsed -
            freeMemoryGetNotCountedMemory noEvictionCexState)
          noEvictionCexState.maxmemory ≤
        sizetSub noEvictionCexState.zmallocUsed 50 := by
  decide

def nominalOverflowState : ServerState :=
  { clientsPaused := false, zmallocUsed := 100, maxmemory := 2 ^ 61,
    maxmemoryPolicy := Policy.lru, slaves := [], aofOn := false, aofBufLen := 0,
    aofRewriteBufSize := 0, evictQueue := [⟨7, 3, 10, Location.redis⟩],
    freeQueue := [], primaryStore := [7], statEvictedkeys := 0,
    batchTieringSize := 1, freeQueueMax := 10, bioLazyFreeReadings := [] }

/-- Counterexample to C6 as stated: with the ceiling configured to `2^61`,
the unsigned 64-bit product `server.maxmemory * 8` wraps to `0`, so both
early-return thresholds collapse to `0`; at usage `100` — far below
`8/10` of the ceiling — `freeMemoryIfNeeded` sails past both early-OK
checks and runs the proactive `_batchTiering` pass, mutating EvictQueue,
instead of returning success immediately with no queue operations. -/
theorem reclaim_nominal_overflow_counterexample :
    10 * (nominalOverflowState.zmallocUsed -
        freeMemoryGetNotCountedMemory nominalOverflowState) ≤
      8 * nominalOverflowState.maxmemory ∧
    sizetMul nominalOverflowState.maxmemory 8 / 10 = 0 ∧
    freeMemoryIfNeeded 1 nominalOverflowState =
      Except.ok (CResult.ok, batchTiering nominalOverflowState) ∧
    (batchTiering nominalOverflowState).evictQueue ≠
      nominalOverflowState.evictQueue := by
  decide

/-- C6 (corrected): whenever used memory net of the not-counted
replication/AOF overhead is at most `8/10` of the ceiling — and eight times
the ceiling does not overflow the unsigned 64-bit counter, i.e. the ceiling
is below `2^61` — `freeMemoryIfNeeded` returns `C_OK` immediately with the
state untouched: no eviction, no queue operation. -/
theorem reclaim_nominal_immediate_ok (fuel : Nat) (s : ServerState)
    (hm : 8 * s.maxmemory < SIZE_T_MOD)
    (h : 10 * (s.zmallocUsed - freeMemoryGetNotCountedMemory s) ≤ 8 * s.maxmemory) :
    freeMemoryIfNeeded fuel s = Except.ok (CResult.ok, s) := by
  have hthr : sizetMul s.maxmemory 8 = s.maxmemory * 8 :=
    sizetMul8_eq_of_no_overflow s.maxmemory hm
  unfold freeMemoryIfNeeded
  rw [hthr]
  by_cases hp : s.clientsPaused
  · rw [if_pos hp]
  · rw [if_neg hp]
    by_cases h1 : s.zmallocUsed ≤ s.maxmemory * 8 / 10
    · rw [if_pos h1]
    · rw [if_neg h1, if_pos (by omega)]

def nominalWitnessState : ServerState :=
  { clientsPaused := false, zmallocUsed := 80, maxmemory := 100,
    maxmemoryPolicy := Policy.lru, slaves := [5], aofOn := false, aofBufLen := 0,
    aofRewriteBufSize := 0, evictQueue := [⟨7, 3, 10, Location.redis⟩],
    freeQueue := [], primaryStore := [7], statEvictedkeys := 0,
    batchTieringSize := 1, freeQueueMax := 10, bioLazyFreeReadings := [] }

/-- Witness for `reclaim_nominal_immediate_ok` at usage 80 net 75 against a
non-overflowing ceiling of 100. -/
theorem reclaim_nominal_immediate_ok_witness :
    8 * nominalWitnessState.maxmemory < SIZE_T_MOD ∧
    10 * (nominalWitnessState.zmallocUsed -
        freeMemoryGetNotCountedMemory nominalWitnessState) ≤
      8 * nominalWitnessState.maxmemory ∧
    freeMemoryIfNeeded 3 nominalWitnessState =
      Except.ok (CResult.ok, nominalWitnessState) :=
  ⟨by decide, by decide,
    reclaim_nominal_immediate_ok 3 nominalWitnessState (by decide) (by decide)⟩

/-- C10: whenever clients are paused, `freeMemoryIfNeeded` returns `C_OK`
immediately with the state untouched, regardless of memory usage — no
FreeQueue pop, no batch tiering, no removal from the primary store. -/
theorem reclaim_paused_noop (fuel : Nat) (s : ServerState)
    (h : s.clientsPaused = true) :
    freeMemoryIfNeeded fuel s = Except.ok (CResult.ok, s) := by
  unfold freeMemoryIfNeeded
  rw [if_pos h]

def pausedWitnessState : ServerState :=
  { clientsPaused := true, zmallocUsed := 1000000, maxmemory := 10,
    maxmemoryPolicy := Policy.lfu, slaves := [], aofOn := true, aofBufLen := 3,
    aofRewriteBufSize := 4, evictQueue := [⟨7, 3, 10, Location.redis⟩],
    freeQueue := [⟨8, 1, 10, Location.persisted⟩], primaryStore := [7, 8],
    statEvictedkeys := 0, batchTieringSize := 1, freeQueueMax := 10,
    bioLazyFreeReadings := [] }

/-- Witness for `reclaim_paused_noop` on a massively over-limit paused
state. -/
theorem reclaim_paused_noop_witness :
    pausedWitnessState.clientsPaused = true ∧
      freeMemoryIfNeeded 2 pausedWitnessState =
        Except.ok (CResult.ok, pausedWitnessState) :=
  ⟨rfl, reclaim_paused_noop 2 pausedWitnessState rfl⟩

/-! ## Relational key codec (`addb_relational.h`, declarations only)

The key codec is declared in `src/addb_relational.h` (`parsingDataKeyInfo`,
`generateDataKeySds`, `generateDataRocksKeySds`,
`generateDataKeyForFirstEntry`, `generatePrevDataKey`) but its
implementation file is not part of the embedded sources, so the codec is
modelled from the spec grammar
`<prefix>{<tableId>:<partitionDescriptor>}[:<rowGroupId>[:<rowId>:<columnId>]]`
with decimal numeric fields, `:`-separated partition values and the data
prefix `D:` (the test commands show the meta prefix `M:{3:1:2}` of the same
shape).  Key strings are byte strings (`sds`), modelled as `List Nat` of
byte values: digits are 48-57, `:` is 58, `{` is 123, `}` is 125, `D` is
68. -/

/-- The parsed form of a data key (`NewDataKeyInfo`), per the spec data
model: table id, ordered partition column values, row-group id, and
optional row id and column id. -/
structure NewDataKeyInfo where
  tableId : Nat
  partitionInfo : List Nat
  rowGroupId : Nat
  rowId : Option Nat
  columnId : Option Nat
deriving DecidableEq

def isDigitByte (b : Nat) : Bool :=
  decide (48 ≤ b ∧ b ≤ 57)

/-- Modelled from the spec: decimal rendering of one numeric key field. -/
def encodeNatBytes (n : Nat) : List Nat :=
  if n = 0 then [48] else (Nat.digits 10 n).reverse.map (fun d => d + 48)

/-- Modelled from the spec: parse one numeric key field; fails on an empty
or non-digit field. -/
def decodeNatBytes (bs : List Nat) : Option Nat :=
  if bs ≠ [] ∧ bs.all isDigitByte then
    some (bs.foldl (fun a b => a * 10 + (b - 48)) 0)
  else none

/-- Modelled from the spec: parse the `<tableId>:<partitionDescriptor>`
segment between the braces; requires a table id and a non-empty partition
descriptor. -/
def parseInner (inner : List Nat) : Option (Nat × List Nat) :=
  match (inner.splitOn 58).mapM decodeNatBytes with
  | some (t1 :: pv) => if pv = [] then none else some (t1, pv)
  | _ => none

/-- Modelled from the spec: parse the `:<rowGroupId>[:<rowId>:<columnId>]`
segment after the closing brace. -/
def parseTail (tail : List Nat) : Option (Nat × Option (Nat × Nat)) :=
  match tail with
  | b :: rgPart =>
    if b = 58 then
      match (rgPart.splitOn 58).mapM decodeNatBytes with
      | some [rg1] => some (rg1, none)
      | some [rg1, row1, col1] => some (rg1, some (row1, col1))
      | _ => none
    else none
  | [] => none

/-- Modelled from the spec: `parsingDataKeyInfo` parses a canonical data
key string, failing (returning `none`, the MalformedKey outcome) unless the
string matches the grammar. -/
def parsingDataKeyInfo (bs : List Nat) : Option NewDataKeyInfo :=
  match bs with
  | b1 :: b2 :: b3 :: rest =>
    if b1 = 68 ∧ b2 = 58 ∧ b3 = 123 then
      match rest.dropWhile (fun b => b != 125) with
      | b :: tail =>
        if b = 125 then
          match parseInner (rest.takeWhile (fun b => b != 125)), parseTail tail with
          | some (t1, pv), some (rg1, none) => some ⟨t1, pv, rg1, none, none⟩
          | some (t1, pv), some (rg1, some (row1, col1)) =>
            some ⟨t1, pv, rg1, some row1, some col1⟩
          | _, _ => none
        else none
      | [] => none
    else none
  | _ => none

/-- Modelled from the spec: `generateDataKeySds` renders the canonical
row-group key `D:{tableId:partitionDescriptor}:rowGroupId`. -/
def generateDataKeySds (k : NewDataKeyInfo) : List Nat :=
  [68, 58, 123] ++ [58].intercalate ((k.tableId :: k.partitionInfo).map encodeNatBytes)
    ++ [125, 58] ++ encodeNatBytes k.rowGroupId

/-- Modelled from the spec: `generateDataRocksKeySds` renders the data cell
key `D:{tableId:partitionDescriptor}:rowGroupId:rowId:columnId` for the
given row and column. -/
def generateDataRocksKeySds (k : NewDataKeyInfo) (rowId columnId : Nat) : List Nat :=
  generateDataKeySds k ++ [58] ++ encodeNatBytes rowId ++ [58] ++ encodeNatBytes columnId

/-- Modelled from the spec: `generateDataKeyForFirstEntry` renders the
first-entry key, addressing the minimum row-group id of the partition. -/
def generateDataKeyForFirstEntry (k : NewDataKeyInfo) (minRowGroupId : Nat) : List Nat :=
  generateDataKeySds { k with rowGroupId := minRowGroupId }

/-- Modelled from the spec: `generatePrevDataKey` renders the
previous-entry key, with row-group id one less than the current one (at the
minimum the decrement is the defined sentinel behaviour). -/
def generatePrevDataKey (k : NewDataKeyInfo) : List Nat :=
  generateDataKeySds { k with rowGroupId := k.rowGroupId - 1 }

theorem encodeNatBytes_digits (n : Nat) : ∀ b ∈ encodeNatBytes n, 48 ≤ b ∧ b ≤ 57 := by
  intro b hb
  unfold encodeNatBytes at hb
  split_ifs at hb with h
  · simp only [List.mem_singleton] at hb
    omega
  · simp only [List.mem_map, List.mem_reverse] at hb
    obtain ⟨d, hd, rfl⟩ := hb
    have := Nat.digits_lt_base (by omega) hd
    omega

theorem encodeNatBytes_ne_nil (n : Nat) : encodeNatBytes n ≠ [] := by
  unfold encodeNatBytes
  split_ifs with h
  · simp
  · simp [Nat.digits_ne_nil_iff_ne_zero, h]

theorem foldl_digits_reverse (L : List Nat) (acc : Nat) :
    L.reverse.foldl (fun a d => a * 10 + d) acc =
      acc * 10 ^ L.length + Nat.ofDigits 10 L := by
  induction L generalizing acc with
  | nil => simp [Nat.ofDigits]
  | cons d L ih =>
    simp only [List.reverse_cons, List.foldl_append, List.foldl_cons, List.foldl_nil,
      ih, Nat.ofDigits_cons, List.length_cons, Nat.cast_id]
    ring

theorem decodeNatBytes_encodeNatBytes (n : Nat) :
    decodeNatBytes (encodeNatBytes n) = some n := by
  by_cases h : n = 0
  · subst h
    decide
  · have hne := encodeNatBytes_ne_nil n
    have hall : (encodeNatBytes n).all isDigitByte = true := by
      rw [List.all_eq_true]
      intro b hb
      have hd := encodeNatBytes_digits n b hb
      exact decide_eq_true_eq.mpr hd
    unfold decodeNatBytes
    rw [if_pos ⟨hne, hall⟩]
    congr 1
    unfold encodeNatBytes
    rw [if_neg h, List.foldl_map]
    simp only [Nat.add_sub_cancel]
    rw [foldl_digits_reverse]
    simp [Nat.ofDigits_digits]

theorem mapM_decode_encode : ∀ xs : List Nat,
    (xs.map encodeNatBytes).mapM decodeNatBytes = some xs := by
  intro xs
  induction xs with
  | nil => rfl
  | cons x xs ih =>
    rw [List.map_cons, List.mapM_cons, decodeNatBytes_encodeNatBytes, ih]
    rfl

theorem takeWhile_append_brace (inner tail : List Nat)
    (h : ∀ b ∈ inner, b ≠ 125) :
    (inner ++ 125 :: tail).takeWhile (fun b => b != 125) = inner ∧
      (inner ++ 125 :: tail).dropWhile (fun b => b != 125) = 125 :: tail := by
  induction inner with
  | nil =>
    constructor <;> simp
  | cons a inner ih =>
    have ha : a ≠ 125 := h a (by simp)
    have hih := ih (fun b hb => h b (by simp [hb]))
    have hcond : (a != 125) = true := by simpa using ha
    constructor
    · simp only [List.cons_append, List.takeWhile_cons, hcond, if_true, ite_true]
      rw [hih.1]
    · simp only [List.cons_append, List.dropWhile_cons, hcond, if_true, ite_true]
      exact hih.2

theorem intercalate58_cons_cons (p q : List Nat) (ps : List (List Nat)) :
    [58].intercalate (p :: q :: ps) = p ++ 58 :: [58].intercalate (q :: ps) := by
  simp [List.intercalate, List.intersperse]

theorem intercalate58_single (p : List Nat) : [58].intercalate [p] = p := by
  simp [List.intercalate, List.intersperse]

theorem intercalate58_triple (a b c : List Nat) :
    [58].intercalate [a, b, c] = a ++ 58 :: (b ++ 58 :: c) := by
  rw [intercalate58_cons_cons, intercalate58_cons_cons, intercalate58_single]

theorem mem_intercalate58 : ∀ (parts : List (List Nat)) (b : Nat),
    b ∈ [58].intercalate parts → b = 58 ∨ ∃ l ∈ parts, b ∈ l := by
  intro parts
  induction parts with
  | nil =>
    intro b hb
    simp [List.intercalate, List.intersperse] at hb
  | cons p ps ih =>
    intro b hb
    cases ps with
    | nil =>
      rw [intercalate58_single] at hb
      exact Or.inr ⟨p, by simp, hb⟩
    | cons q ps2 =>
      rw [intercalate58_cons_cons] at hb
      rcases List.mem_append.mp hb with h1 | h1
      · exact Or.inr ⟨p, by simp, h1⟩
      · rcases List.mem_cons.mp h1 with h2 | h2
        · exact Or.inl h2
        · rcases ih b h2 with h3 | ⟨l, hl, hbl⟩
          · exact Or.inl h3
          · exact Or.inr ⟨l, List.mem_cons_of_mem p hl, hbl⟩

theorem splitOn_intercalate58 (parts : List (List Nat)) (hne : parts ≠ [])
    (hd : ∀ l ∈ parts, (58 : Nat) ∉ l) :
    ([58].intercalate parts).splitOn 58 = parts :=
  List.splitOn_intercalate parts 58 hd hne

theorem splitOn58_single (l : List Nat) (hl : (58 : Nat) ∉ l) :
    l.splitOn 58 = [l] := by
  calc l.splitOn 58 = ([58].intercalate [l]).splitOn 58 := by
        rw [intercalate58_single]
    _ = [l] := splitOn_intercalate58 [l] (by simp) (by
        intro l2 hl2
        rw [List.mem_singleton] at hl2
        subst hl2
        exact hl)

theorem parse_generate_core (t : Nat) (p : List Nat) (hp : p ≠ [])
    (tailAfter : List Nat) :
    parsingDataKeyInfo (68 :: 58 :: 123 ::
        ([58].intercalate ((t :: p).map encodeNatBytes) ++ 125 :: 58 :: tailAfter)) =
      (match (tailAfter.splitOn 58).mapM decodeNatBytes with
       | some [rg1] => some ⟨t, p, rg1, none, none⟩
       | some [rg1, row1, col1] => some ⟨t, p, rg1, some row1, some col1⟩
       | _ => none) := by
  have hmem : ∀ b ∈ [58].intercalate ((t :: p).map encodeNatBytes), b ≠ 125 := by
    intro b hb
    rcases mem_intercalate58 ((t :: p).map encodeNatBytes) b hb with h1 | ⟨l, hl, hbl⟩
    · omega
    · rcases List.mem_map.mp hl with ⟨x, -, rfl⟩
      have := encodeNatBytes_digits x b hbl
      omega
  obtain ⟨htw, hdw⟩ := takeWhile_append_brace _ (58 :: tailAfter) hmem
  have hpi : parseInner ([58].intercalate ((t :: p).map encodeNatBytes)) =
      some (t, p) := by
    unfold parseInner
    rw [splitOn_intercalate58 _ (by simp) (by
      intro l hl
      rcases List.mem_map.mp hl with ⟨x, -, rfl⟩
      intro hc
      have := encodeNatBytes_digits x 58 hc
      omega)]
    rw [mapM_decode_encode]
    simp [hp]
  simp only [parsingDataKeyInfo]
  rw [hdw]
  simp only [htw, hpi, parseTail, eq_self_iff_true, and_self, if_true, ite_true]
  cases hX : (tailAfter.splitOn 58).mapM decodeNatBytes with
  | none => rfl
  | some l =>
    rcases l with - | ⟨a, - | ⟨b2, - | ⟨c, - | ⟨d, l2⟩⟩⟩⟩ <;> rfl

/-- C1 (spec-modelled): for every valid RelationalKey — a table id, a
non-empty partition descriptor and a row-group id — every encode variant
round-trips exactly through `parsingDataKeyInfo`: the row-group key parses
back to the key itself; the data cell key parses back to the key extended
with the given row and column ids; the first-entry key parses back to the
key at the minimum row-group id; and the previous-entry key parses back to
the key at the decremented row-group id. -/
theorem keyCodec_roundtrip (t rg row col minRg : Nat) (p : List Nat) (hp : p ≠ []) :
    parsingDataKeyInfo (generateDataKeySds ⟨t, p, rg, none, none⟩) =
        some ⟨t, p, rg, none, none⟩ ∧
      parsingDataKeyInfo (generateDataRocksKeySds ⟨t, p, rg, none, none⟩ row col) =
        some ⟨t, p, rg, some row, some col⟩ ∧
      parsingDataKeyInfo (generateDataKeyForFirstEntry ⟨t, p, rg, none, none⟩ minRg) =
        some ⟨t, p, minRg, none, none⟩ ∧
      parsingDataKeyInfo (generatePrevDataKey ⟨t, p, rg, none, none⟩) =
        some ⟨t, p, rg - 1, none, none⟩ := by
  have h58 : ∀ n : Nat, (58 : Nat) ∉ encodeNatBytes n := by
    intro n hc
    have := encodeNatBytes_digits n 58 hc
    omega
  have hbase : ∀ rg1 : Nat,
      parsingDataKeyInfo (generateDataKeySds ⟨t, p, rg1, none, none⟩) =
        some ⟨t, p, rg1, none, none⟩ := by
    intro rg1
    have hgen : generateDataKeySds ⟨t, p, rg1, none, none⟩ = 68 :: 58 :: 123 ::
        ([58].intercalate ((t :: p).map encodeNatBytes) ++
          125 :: 58 :: encodeNatBytes rg1) := by
      simp [generateDataKeySds]
    have hm1 : ([encodeNatBytes rg1] : List (List Nat)).mapM decodeNatBytes =
        some [rg1] := by
      have h := mapM_decode_encode [rg1]
      simpa using h
    rw [hgen, parse_generate_core t p hp (encodeNatBytes rg1),
      splitOn58_single _ (h58 rg1), hm1]
  refine ⟨hbase rg, ?_, ?_, ?_⟩
  · have hrocks : generateDataRocksKeySds ⟨t, p, rg, none, none⟩ row col =
        68 :: 58 :: 123 ::
          ([58].intercalate ((t :: p).map encodeNatBytes) ++ 125 :: 58 ::
            (encodeNatBytes rg ++ 58 :: (encodeNatBytes row ++ 58 :: encodeNatBytes col))) := by
      simp [generateDataRocksKeySds, generateDataKeySds, List.append_assoc]
    have hm3 : ([encodeNatBytes rg, encodeNatBytes row, encodeNatBytes col] :
        List (List Nat)).mapM decodeNatBytes = some [rg, row, col] := by
      have h := mapM_decode_encode [rg, row, col]
      simpa using h
    rw [hrocks, parse_generate_core t p hp _, ← intercalate58_triple,
      splitOn_intercalate58 _ (by simp) (by
        intro l hl
        rcases List.mem_cons.mp hl with h1 | h1
        · subst h1; exact h58 rg
        rcases List.mem_cons.mp h1 with h2 | h2
        · subst h2; exact h58 row
        rcases List.mem_cons.mp h2 with h3 | h3
        · subst h3; exact h58 col
        · simp at h3),
      hm3]
  · have hfirst : generateDataKeyForFirstEntry ⟨t, p, rg, none, none⟩ minRg =
        generateDataKeySds ⟨t, p, minRg, none, none⟩ := rfl
    rw [hfirst, hbase minRg]
  · have hprev : generatePrevDataKey ⟨t, p, rg, none, none⟩ =
        generateDataKeySds ⟨t, p, rg - 1, none, none⟩ := rfl
    rw [hprev, hbase (rg - 1)]

/-- Witness for `keyCodec_roundtrip` at the concrete key
`D:{3:1:2}:4`, its cell `(7, 8)`, and minimum row-group id `0`. -/
theorem keyCodec_roundtrip_witness :
    ([1, 2] : List Nat) ≠ [] ∧
      parsingDataKeyInfo (generateDataKeySds ⟨3, [1, 2], 4, none, none⟩) =
        some ⟨3, [1, 2], 4, none, none⟩ ∧
      parsingDataKeyInfo (generateDataRocksKeySds ⟨3, [1, 2], 4, none, none⟩ 7 8) =
        some ⟨3, [1, 2], 4, some 7, some 8⟩ :=
  ⟨by decide, (keyCodec_roundtrip 3 4 7 8 0 [1, 2] (by decide)).1,
    (keyCodec_roundtrip 3 4 7 8 0 [1, 2] (by decide)).2.1⟩

end Addb
